import Mathlib

/-! Verification of the PMI natural-language panel-search pipeline.

The development shallowly embeds the parts of the Python sources that the
properties below are about:

* `src/search.py` (`search_pipeline`): the RRF rank-fusion step, the
  LLM-reranking step, the backfill selector and the final response assembly;
* `src/db_search.py`: `preprocess_text` (normalisation regexes),
  `filter_by_regions`, `has_field_info`, `get_jsons_by_ids`;
* `src/build_index.py`: `build_bm25_index` (batched corpus scan) and
  `save_index` (snapshot persistence);
* `src/sonnet_api.py`: `llm_filter_panel` (error handling and the
  `<result>` block parse).

Machine floats in the Python code (`rrf_score`) are modelled over `ℚ`;
SQL `SELECT` without `ORDER BY` is modelled as returning the matching rows
in table (storage) order; Python's `set` iteration order is modelled by
an explicit enumeration parameter constrained to be a permutation of the
deduplicated union.
-/

namespace PanelSearch

/-! Rank fusion (src/search.py, lines 158-205)

`bm25_rank_map = {id_: rank + 1 for rank, id_ in enumerate(bm25_ids)}`:
a Python dict comprehension lets a later binding overwrite an earlier one,
so the rank of an id is its *last* 0-based index plus one.  `lastIdx`
captures that; `rank_lookup` is `rank_map.get(id_, len(ids) + 1)`. -/

def lastIdx (x : String) : List String → Option Nat
  | [] => none
  | a :: rest =>
    match lastIdx x rest with
    | some j => some (j + 1)
    | none => if a = x then some 0 else none

def rank_lookup (l : List String) (x : String) : Nat :=
  match lastIdx x l with
  | some i => i + 1
  | none => l.length + 1

/-- The score `rrf_score = (1.0 / (k + bm25_rank)) + (1.0 / (k + vector_rank))`,
floats modelled over `ℚ`. -/
def rrf_score (A B : List String) (k : Nat) (x : String) : ℚ :=
  1 / ((k : ℚ) + rank_lookup A x) + 1 / ((k : ℚ) + rank_lookup B x)

/-- Sort key of `sorted(rrf_input, key=lambda x: x["rrf_score"], reverse=True)`:
descending by score.  Python's `sorted` is stable; `List.insertionSort`
inserts an element before the first element it relates to, so it is stable
for this reflexive relation in the same way. -/
def scoreDesc (p q : String × ℚ) : Prop := q.2 ≤ p.2

instance : DecidableRel scoreDesc :=
  fun p q => inferInstanceAs (Decidable (q.2 ≤ p.2))

instance : IsTotal (String × ℚ) scoreDesc :=
  ⟨fun p q => le_total q.2 p.2⟩

instance : IsTrans (String × ℚ) scoreDesc :=
  ⟨fun _ _ _ h1 h2 => le_trans h2 h1⟩

/-- The list `rrf_sorted` of `search_pipeline`: score every id of the enumeration
`e` of `list(set(bm25_ids + vector_ids))` and sort descending by score. -/
def rrf_sorted (e A B : List String) (k : Nat) : List (String × ℚ) :=
  List.insertionSort scoreDesc (e.map fun x => (x, rrf_score A B k x))

/-- Rank as the specification words it: the 1-based position in the list,
or `len(list) + 1` when absent. -/
def specRank (l : List String) (x : String) : Nat :=
  if x ∈ l then l.indexOf x + 1 else l.length + 1

/-! LLM response parsing (src/sonnet_api.py, lines 386-392)

`re.search(r'<result>(.*?)</result>', raw_content, re.DOTALL)`: the match
starts at the first occurrence of `<result>` that is followed by some
`</result>`, and the lazy group ends at the first `</result>` after it.
If no match, the whole stripped response is used. -/

/-- Python `str.strip()` / `str.split()` whitespace (ASCII part of `\s`). -/
def pyIsSpace (c : Char) : Bool :=
  c.toNat = 32 || c.toNat = 9 || c.toNat = 10 || c.toNat = 13 ||
  c.toNat = 11 || c.toNat = 12

/-- Python `str.strip()`: drop leading and trailing whitespace. -/
def pyStrip (s : List Char) : List Char :=
  ((s.dropWhile pyIsSpace).reverse.dropWhile pyIsSpace).reverse

/-- Python `str.split()` with no argument: split on whitespace runs,
returning no empty fields. -/
def splitWs : List Char → List (List Char)
  | [] => []
  | c :: rest =>
    if pyIsSpace c then splitWs rest
    else (c :: rest.takeWhile (fun d => ! pyIsSpace d)) ::
      splitWs (rest.dropWhile (fun d => ! pyIsSpace d))
termination_by s => s.length
decreasing_by
  · simp only [List.length_cons]
    omega
  · have := (List.dropWhile_sublist (l := rest) (fun d => ! pyIsSpace d)).length_le
    simp only [List.length_cons]
    omega

/-- Split `s` at the leftmost occurrence of `pat`: returns the part before
and the part after that occurrence. -/
def splitFirst (pat : List Char) : List Char → Option (List Char × List Char)
  | [] => if pat.isPrefixOf ([] : List Char) then some ([], []) else none
  | c :: rest =>
    if pat.isPrefixOf (c :: rest) then some ([], (c :: rest).drop pat.length)
    else
      match splitFirst pat rest with
      | some (u, v) => some (c :: u, v)
      | none => none

def openTag : List Char := "<result>".data

def closeTag : List Char := "</result>".data

/-- The parse of `llm_filter_panel`'s raw response: inner text of the first
`<result>...</result>` block, stripped; the whole stripped response when
the pattern does not match. -/
def extractResult (s : List Char) : List Char :=
  match splitFirst openTag s with
  | none => pyStrip s
  | some (_, rest) =>
    match splitFirst closeTag rest with
    | some (inner, _) => pyStrip inner
    | none => pyStrip s

/-- Model of `final_ids = llm_result.split() if llm_result else []` (src/search.py,
lines 237-239), applied to the raw reranker response.  (`''.split()` is
`[]`, so the emptiness guard adds nothing.) -/
def llmFinalIds (s : List Char) : List (List Char) :=
  splitWs (pyStrip (extractResult s))

/-! Reranking step and candidate selector (src/search.py, lines 225-256;
src/sonnet_api.py, lines 242-398) -/

/-- Outcome of the external reranker call inside `llm_filter_panel`:
a successful response text, a `RateLimitError`, or any other exception. -/
inductive LLMOutcome where
  | ok (text : String)
  | rateLimit
  | failure
deriving DecidableEq

structure PanelJson where
  id : String
  info : String
deriving DecidableEq

/-- Function `llm_filter_panel` (src/sonnet_api.py): empty candidate list short-circuits
to `""`; a successful call is parsed; `except RateLimitError: raise`
re-raises (modelled as `Except.error`, since `search_pipeline` does not
catch it); any other exception returns `""`. -/
def llm_filter_panel (jsons : List PanelJson) (o : LLMOutcome) : Except Unit String :=
  if jsons.isEmpty then Except.ok ""
  else
    match o with
    | LLMOutcome.ok t => Except.ok (String.mk (extractResult t.data))
    | LLMOutcome.rateLimit => Except.error ()
    | LLMOutcome.failure => Except.ok ""

/-- The backfill of src/search.py, lines 246-256: when the reranker returned
fewer than `result_count` ids, append the ids of
`[p for p in top_panels if p['id'] not in final_ids][:shortage]`. -/
def select_final_ids (top_panels : List (String × ℚ)) (result_count : Nat)
    (final0 : List String) : List String :=
  if final0.length < result_count then
    final0 ++
      ((top_panels.filter fun p => decide (p.1 ∉ final0)).take
        (result_count - final0.length)).map Prod.fst
  else final0

/-- Lines 237-256 of `search_pipeline`: call the reranker, split its text
into ids, backfill from the fused pool.  An uncaught exception propagates. -/
def rerank_step (top_panels : List (String × ℚ)) (result_count : Nat)
    (jsons : List PanelJson) (o : LLMOutcome) : Except Unit (List String) :=
  match llm_filter_panel jsons o with
  | Except.error e => Except.error e
  | Except.ok raw =>
    Except.ok (select_final_ids top_panels result_count
      ((splitWs (pyStrip raw.data)).map String.mk))

/-! Database reads (src/db_search.py)

A `SELECT ... WHERE id = ANY(%s)` / `WHERE id IN %s` with no `ORDER BY`
returns the matching rows in the table's own (storage) order, not in the
order of the id array. -/

structure JsonRow where
  id : String
  info : String
deriving DecidableEq

/-- Function `get_jsons_by_ids` (src/db_search.py, lines 472-503). -/
def get_jsons_by_ids (table : List JsonRow) (ids : List String) : List JsonRow :=
  if ids = [] then []
  else table.filter fun r => decide (r.id ∈ ids)

/-- Lines 262-278 of `search_pipeline`:
`answers = answers_full[:min(result_count, len(answers_full))]`. -/
def final_answers (table : List JsonRow) (final_ids : List String)
    (result_count : Nat) : List JsonRow :=
  (get_jsons_by_ids table final_ids).take
    (min result_count (get_jsons_by_ids table final_ids).length)

structure RegionRow where
  id : String
  region : String
deriving DecidableEq

/-- Function `filter_by_regions` (src/db_search.py, lines 226-269): `None` and empty
input short-circuit; otherwise the SQL returns the ids of matching table
rows in table order. -/
def filter_by_regions (table : List RegionRow) (ids : List String)
    (regions : Option (List String)) : List String :=
  match regions with
  | none => ids
  | some rs =>
    if ids = [] then ids
    else (table.filter fun r =>
      decide (r.id ∈ ids) && decide (r.region ∈ rs)).map RegionRow.id

structure FieldRow where
  id : String
  fields : List (String × String)
deriving DecidableEq

/-- Function `has_field_info` (src/db_search.py, lines 506-577): keep ids whose row
has at least one of the exact keys with a non-empty value; same
ORDER-BY-less SQL shape, so output comes in table order. -/
def has_field_info (table : List FieldRow) (ids : List String)
    (field_keywords : List String) : List String :=
  if ids = [] ∨ field_keywords = [] then ids
  else (table.filter fun r =>
    decide (r.id ∈ ids) &&
      field_keywords.any fun kw =>
        r.fields.any fun f => f.1 == kw && f.2 != "").map FieldRow.id

/-! Index build and snapshot persistence (src/build_index.py) -/

/-- The batched corpus scan of `build_bm25_index` (lines 91-132): documents
are fetched `ORDER BY id LIMIT batch_size OFFSET offset` until the corpus
is exhausted.  `chunksB b rows` is the list of successive batches. -/
def chunksB : Nat → List (String × String) → List (List (String × String))
  | _, [] => []
  | 0, _ :: _ => []
  | b + 1, r :: rest =>
    ((r :: rest).take (b + 1)) :: chunksB (b + 1) ((r :: rest).drop (b + 1))
termination_by _ l => l.length
decreasing_by
  simp only [List.length_drop, List.length_cons]
  omega

/-- Per-document processing (lines 104-111): tokenize, keep the document
when the token list is non-empty, always count it as processed.  The
state is `(tokenized_docs, doc_ids, total_processed)`.  The tokenizer
(`preprocess_text` with the Kiwi analyzer) is an opaque parameter `tok`:
only that it is a fixed function of the document matters here. -/
def stepDoc (tok : String → List String)
    (st : List (List String) × List String × Nat) (d : String × String) :
    List (List String) × List String × Nat :=
  let ts := tok d.2
  if ts = [] then (st.1, st.2.1, st.2.2 + 1)
  else (st.1 ++ [ts], st.2.1 ++ [d.1], st.2.2 + 1)

/-- The `build_bm25_index` batch loop: fold the per-document step over the
batches in order. -/
def build_bm25_index (tok : String → List String) (batch_size : Nat)
    (rows : List (String × String)) :
    List (List String) × List String × Nat :=
  (chunksB batch_size rows).foldl
    (fun st batch => batch.foldl (stepDoc tok) st) ([], [], 0)

/-- The per-document length table of the built index (what `BM25Okapi`
derives from `tokenized_docs`). -/
def docLengthTable (st : List (List String) × List String × Nat) : List Nat :=
  st.1.map List.length

/-- The postings column for a term: its frequency in each indexed document
(what `BM25Okapi` derives from `tokenized_docs`). -/
def postings (st : List (List String) × List String × Nat) (t : String) : List Nat :=
  st.1.map (List.count t)

/-- The count `excluded = total_processed - len(tokenized_docs)` (line 141). -/
def excludedCount (st : List (List String) × List String × Nat) : Nat :=
  st.2.2 - st.1.length

/-- Filesystem operations relevant to snapshot persistence. -/
inductive FsOp where
  | write (path content : String)
  | rename (src dst : String)
deriving DecidableEq

/-- Function `save_index` (src/build_index.py, lines 160-185) opens the destination
itself with `open(output_file, 'wb')` and pickles into it: its operation
trace is a single direct write to the destination path. -/
def save_index_ops (content : String) : List FsOp :=
  [FsOp.write "bm25_index.pkl" content]

/-- An atomic replace in the spec's sense: some temporary path is written
and then renamed onto the destination. -/
def atomicReplace (t : List FsOp) (dest : String) : Prop :=
  ∃ (i j : Nat) (tmp c : String), i < j ∧ t[i]? = some (FsOp.write tmp c) ∧
    tmp ≠ dest ∧ t[j]? = some (FsOp.rename tmp dest)

/-- Model of `main` of build_index.py on the filesystem: when the corpus source is
unreachable, `build_bm25_index` calls `sys.exit(1)` before `save_index`
runs, so the filesystem is untouched; otherwise the snapshot content is
written over the destination path in place. -/
def build_and_save (reachable : Bool) (content : String)
    (fs : String → Option String) : String → Option String :=
  if reachable then
    fun p => if p = "bm25_index.pkl" then some content else fs p
  else fs

/-! Text normalisation of `preprocess_text` (src/db_search.py, 131-162)

Step 1: `re.sub(r'[^가-힣A-Za-z0-9\s]', ' ', text)` — every character that
is not a complete Hangul syllable, a Latin letter, a digit or whitespace
becomes a space (Hangul jamo U+3131-U+3163 are *not* syllables, so they
are already replaced here).
Step 2: `re.sub(r'([ㄱ-ㅎㅏ-ㅣ])\1{1,}', '', text)` — a run of two or more
equal jamo is replaced by the empty string (removed, not collapsed).
Step 3: `re.sub(r'\s+', ' ', text).strip()`. -/

def isJamo (c : Char) : Bool :=
  0x3131 ≤ c.toNat && c.toNat ≤ 0x3163

def isStep1Kept (c : Char) : Bool :=
  (0xAC00 ≤ c.toNat && c.toNat ≤ 0xD7A3) ||
  (0x41 ≤ c.toNat && c.toNat ≤ 0x5A) || (0x61 ≤ c.toNat && c.toNat ≤ 0x7A) ||
  (0x30 ≤ c.toNat && c.toNat ≤ 0x39) ||
  pyIsSpace c

/-- Step 1. -/
def step1 (s : List Char) : List Char :=
  s.map fun c => if isStep1Kept c then c else ' '

/-- Step 2: single left-to-right pass of `re.sub` with the backreference
pattern — each maximal run of two or more equal jamo is deleted; a lone
jamo does not match and is kept. -/
def remove_repeated_jamo : List Char → List Char
  | [] => []
  | c :: rest =>
    if isJamo c && !(rest.takeWhile (fun d => d == c)).isEmpty then
      remove_repeated_jamo (rest.drop (rest.takeWhile (fun d => d == c)).length)
    else c :: remove_repeated_jamo rest
termination_by s => s.length
decreasing_by
  · simp only [List.length_drop, List.length_cons]
    omega
  · simp only [List.length_cons]
    omega

/-- Step 3, first half: collapse whitespace runs to a single space. -/
def collapseWs : List Char → List Char
  | [] => []
  | c :: rest =>
    if pyIsSpace c then ' ' :: collapseWs (rest.dropWhile pyIsSpace)
    else c :: collapseWs rest
termination_by s => s.length
decreasing_by
  · have := (List.dropWhile_sublist (l := rest) pyIsSpace).length_le
    simp only [List.length_cons]
    omega
  · simp only [List.length_cons]
    omega

/-- The normalisation part of `preprocess_text` (before the Kiwi analyzer
runs; when it yields the empty string the function returns `[]` without
tokenizing). -/
def preprocess_normalize (s : List Char) : List Char :=
  pyStrip (collapseWs (remove_repeated_jamo (step1 s)))

theorem lastIdx_isSome_iff (x : String) (l : List String) :
    (lastIdx x l).isSome ↔ x ∈ l := by
  induction l with
  | nil => simp [lastIdx]
  | cons a rest ih =>
    simp only [lastIdx]
    cases h : lastIdx x rest with
    | some j =>
      simp only [Option.isSome_some, true_iff]
      have : x ∈ rest := (ih.mp (by simp [h]))
      exact List.mem_cons_of_mem _ this
    | none =>
      by_cases hax : a = x
      · simp [hax]
      · simp only [if_neg hax]
        rw [h] at ih
        simp only [Option.isSome_none, Bool.false_eq_true, false_iff] at ih ⊢
        intro hmem
        rcases List.mem_cons.mp hmem with h1 | h2
        · exact hax h1.symm
        · exact ih h2

theorem rank_lookup_eq_specRank (l : List String) (x : String) (hl : l.Nodup) :
    rank_lookup l x = specRank l x := by
  induction l with
  | nil => simp [rank_lookup, specRank, lastIdx]
  | cons a rest ih =>
    have hrest : rest.Nodup := (List.nodup_cons.mp hl).2
    have hanr : a ∉ rest := (List.nodup_cons.mp hl).1
    simp only [rank_lookup, lastIdx]
    cases h : lastIdx x rest with
    | some j =>
      have hmem : x ∈ rest := (lastIdx_isSome_iff x rest).mp (by simp [h])
      have hax : ¬ a = x := fun he => hanr (he ▸ hmem)
      have hix : x ∈ a :: rest := List.mem_cons_of_mem _ hmem
      have hax2 : (a == x) = false := beq_false_of_ne hax
      simp only [specRank, if_pos hix, List.indexOf_cons, hax2, cond_false]
      have := ih hrest
      simp only [rank_lookup, h, specRank, if_pos hmem] at this
      omega
    | none =>
      have hnm : x ∉ rest := by
        intro hmem
        have := (lastIdx_isSome_iff x rest).mpr hmem
        rw [h] at this
        simp at this
      by_cases hax : a = x
      · simp only [if_pos hax, specRank, List.mem_cons]
        have hor : x = a ∨ x ∈ rest := Or.inl hax.symm
        have hax2 : (a == x) = true := beq_iff_eq.mpr hax
        rw [if_pos hor]
        simp [List.indexOf_cons, hax2]
      · simp only [if_neg hax, specRank, List.mem_cons]
        have hor : ¬ (x = a ∨ x ∈ rest) := by
          rintro (h1 | h2)
          · exact hax h1.symm
          · exact hnm h2
        rw [if_neg hor]

theorem map_fst_pair_map (f : String → ℚ) (l : List String) :
    (l.map fun x => (x, f x)).map Prod.fst = l := by
  induction l with
  | nil => rfl
  | cons c cs ih => simp only [List.map_cons, ih]

/-- C1: for ranked id lists `A`, `B` and positive `k`, the fusion step
scores every id of the union (rank = 1-based position, or `len+1` when
absent; `fusedScore = 1/(k+rankA) + 1/(k+rankB)`) and returns the ids
sorted in descending order of `fusedScore`.  The enumeration `e` models
`list(set(A + B))`. -/
theorem rrf_fusion_correct (A B e : List String) (k : Nat)
    (hA : A.Nodup) (hB : B.Nodup) (hk : 0 < k)
    (he : e.Perm ((A ++ B).dedup)) :
    (∀ x, (∃ s, (x, s) ∈ rrf_sorted e A B k) ↔ (x ∈ A ∨ x ∈ B))
    ∧ (∀ p ∈ rrf_sorted e A B k,
        p.2 = 1 / ((k : ℚ) + specRank A p.1) + 1 / ((k : ℚ) + specRank B p.1))
    ∧ List.Sorted scoreDesc (rrf_sorted e A B k)
    ∧ ((rrf_sorted e A B k).map Prod.fst).Nodup := by
  have hperm : (rrf_sorted e A B k).Perm (e.map fun x => (x, rrf_score A B k x)) :=
    List.perm_insertionSort _ _
  have hmem : ∀ x, x ∈ e ↔ (x ∈ A ∨ x ∈ B) := by
    intro x
    rw [he.mem_iff, List.mem_dedup, List.mem_append]
  refine ⟨?_, ?_, ?_, ?_⟩
  · intro x
    constructor
    · rintro ⟨s, hs⟩
      have := hperm.mem_iff.mp hs
      rcases List.mem_map.mp this with ⟨y, hy, hexy⟩
      have : y = x := congrArg Prod.fst hexy
      exact (hmem x).mp (this ▸ hy)
    · intro hx
      refine ⟨rrf_score A B k x, ?_⟩
      exact hperm.mem_iff.mpr (List.mem_map.mpr ⟨x, (hmem x).mpr hx, rfl⟩)
  · intro p hp
    have := hperm.mem_iff.mp hp
    rcases List.mem_map.mp this with ⟨y, _, hexy⟩
    have h1 : p.1 = y := (congrArg Prod.fst hexy).symm
    have h2 : p.2 = rrf_score A B k y := (congrArg Prod.snd hexy).symm
    rw [h2, h1, rrf_score, rank_lookup_eq_specRank A y hA, rank_lookup_eq_specRank B y hB]
  · exact List.sorted_insertionSort _ _
  · have hpermfst : ((rrf_sorted e A B k).map Prod.fst).Perm
        ((e.map fun x => (x, rrf_score A B k x)).map Prod.fst) := hperm.map _
    have heq : (e.map fun x => (x, rrf_score A B k x)).map Prod.fst = e :=
      map_fst_pair_map _ e
    rw [heq] at hpermfst
    have henodup : e.Nodup := he.nodup_iff.mpr (List.nodup_dedup _)
    exact hpermfst.nodup_iff.mpr henodup

/-- C1 witness: the fusion theorem applied to `A = ["a"]`, `B = ["b"]`,
`k = 60`, with the enumeration `["a", "b"]`. -/
theorem rrf_fusion_correct_witness :
    (∀ x, (∃ s, (x, s) ∈ rrf_sorted ["a", "b"] ["a"] ["b"] 60) ↔ (x ∈ ["a"] ∨ x ∈ ["b"]))
    ∧ (∀ p ∈ rrf_sorted ["a", "b"] ["a"] ["b"] 60,
        p.2 = 1 / ((60 : ℚ) + specRank ["a"] p.1) + 1 / ((60 : ℚ) + specRank ["b"] p.1))
    ∧ List.Sorted scoreDesc (rrf_sorted ["a", "b"] ["a"] ["b"] 60)
    ∧ ((rrf_sorted ["a", "b"] ["a"] ["b"] 60).map Prod.fst).Nodup :=
  rrf_fusion_correct ["a"] ["b"] ["a", "b"] 60 (by decide) (by decide)
    (by decide) (by decide)

/-! C2: determinism of the fusion step -/

/-- Strict descending-score order. -/
def scoreDescStrict (p q : String × ℚ) : Prop := q.2 < p.2

instance : IsAntisymm (String × ℚ) scoreDescStrict :=
  ⟨fun _ _ h1 h2 => absurd (lt_trans h2 h1) (lt_irrefl _)⟩

/-- C2 counterexample: with `A = ["b"]`, `B = ["a"]`, `k = 1`, both
`["a","b"]` and `["b","a"]` are valid iteration orders of
`set(A + B)`; ids "a" and "b" tie on fusedScore, yet the two runs give
different outputs, and for the second order the tied ids come out as
`["b","a"]` although `"a" < "b"` — ties are not broken by id ascending,
and the output depends on the unspecified set order. -/
theorem rrf_tie_counterexample :
    ((["a", "b"] : List String).Perm ((["b"] ++ ["a"]).dedup))
    ∧ ((["b", "a"] : List String).Perm ((["b"] ++ ["a"]).dedup))
    ∧ rrf_score ["b"] ["a"] 1 "a" = rrf_score ["b"] ["a"] 1 "b"
    ∧ (rrf_sorted ["a", "b"] ["b"] ["a"] 1).map Prod.fst = ["a", "b"]
    ∧ (rrf_sorted ["b", "a"] ["b"] ["a"] 1).map Prod.fst = ["b", "a"]
    ∧ rrf_sorted ["a", "b"] ["b"] ["a"] 1 ≠ rrf_sorted ["b", "a"] ["b"] ["a"] 1
    ∧ "a".data < "b".data := by
  have ra1 : rank_lookup ["b"] "a" = 2 := by decide
  have ra2 : rank_lookup ["a"] "a" = 1 := by decide
  have rb1 : rank_lookup ["b"] "b" = 1 := by decide
  have rb2 : rank_lookup ["a"] "b" = 2 := by decide
  have hsc : rrf_score ["b"] ["a"] 1 "a" = 5 / 6 := by
    rw [rrf_score, ra1, ra2]
    norm_num
  have hsc2 : rrf_score ["b"] ["a"] 1 "b" = 5 / 6 := by
    rw [rrf_score, rb1, rb2]
    norm_num
  have h1 : rrf_sorted ["a", "b"] ["b"] ["a"] 1 = [("a", 5 / 6), ("b", 5 / 6)] := by
    simp only [rrf_sorted, List.map_cons, List.map_nil, hsc, hsc2]
    norm_num [List.insertionSort, List.orderedInsert, scoreDesc]
  have h2 : rrf_sorted ["b", "a"] ["b"] ["a"] 1 = [("b", 5 / 6), ("a", 5 / 6)] := by
    simp only [rrf_sorted, List.map_cons, List.map_nil, hsc, hsc2]
    norm_num [List.insertionSort, List.orderedInsert, scoreDesc]
  refine ⟨by decide, by decide, by rw [hsc, hsc2], by rw [h1]; rfl, by rw [h2]; rfl,
    ?_, by decide⟩
  rw [h1, h2]
  intro h
  have := congrArg (fun l => List.map Prod.fst l) h
  simp at this

/-- C2 amended: the fusion step is a pure function of the enumeration, the
two lists and `k`; when the fused scores of the union are pairwise
distinct, the output is independent of the set-iteration order (ties, when
they exist, follow the unspecified set order, not ascending ids). -/
theorem rrf_deterministic_of_distinct_scores (A B e₁ e₂ : List String) (k : Nat)
    (h₁ : e₁.Perm ((A ++ B).dedup)) (h₂ : e₂.Perm ((A ++ B).dedup))
    (hs : (((A ++ B).dedup).map (rrf_score A B k)).Nodup) :
    rrf_sorted e₁ A B k = rrf_sorted e₂ A B k := by
  have hp₁ : (rrf_sorted e₁ A B k).Perm
      (((A ++ B).dedup).map fun x => (x, rrf_score A B k x)) :=
    (List.perm_insertionSort _ _).trans (h₁.map _)
  have hp₂ : (rrf_sorted e₂ A B k).Perm
      (((A ++ B).dedup).map fun x => (x, rrf_score A B k x)) :=
    (List.perm_insertionSort _ _).trans (h₂.map _)
  have hperm : (rrf_sorted e₁ A B k).Perm (rrf_sorted e₂ A B k) :=
    hp₁.trans hp₂.symm
  have hne0 : (((A ++ B).dedup).map fun x => (x, rrf_score A B k x)).Pairwise
      (fun p q => p.2 ≠ q.2) := by
    rw [List.pairwise_map]
    exact (List.pairwise_map.mp hs)
  have hne₁ : (rrf_sorted e₁ A B k).Pairwise (fun p q => p.2 ≠ q.2) :=
    (hp₁.pairwise_iff (fun h => Ne.symm h)).mpr hne0
  have hne₂ : (rrf_sorted e₂ A B k).Pairwise (fun p q => p.2 ≠ q.2) :=
    (hp₂.pairwise_iff (fun h => Ne.symm h)).mpr hne0
  have hsort₁ : (rrf_sorted e₁ A B k).Pairwise scoreDesc :=
    List.sorted_insertionSort _ _
  have hsort₂ : (rrf_sorted e₂ A B k).Pairwise scoreDesc :=
    List.sorted_insertionSort _ _
  have hst₁ : List.Sorted scoreDescStrict (rrf_sorted e₁ A B k) :=
    hsort₁.imp₂ (fun _ _ hle hne => lt_of_le_of_ne hle hne.symm) hne₁
  have hst₂ : List.Sorted scoreDescStrict (rrf_sorted e₂ A B k) :=
    hsort₂.imp₂ (fun _ _ hle hne => lt_of_le_of_ne hle hne.symm) hne₂
  exact List.eq_of_perm_of_sorted hperm hst₁ hst₂

/-- C2 amended witness: `A = ["a","b"]`, `B = []`, `k = 1` gives distinct
scores 1 and 5/6, so the two enumeration orders agree. -/
theorem rrf_deterministic_witness :
    rrf_sorted ["a", "b"] ["a", "b"] [] 1 = rrf_sorted ["b", "a"] ["a", "b"] [] 1 :=
  rrf_deterministic_of_distinct_scores ["a", "b"] [] ["a", "b"] ["b", "a"] 1
    (by decide) (by decide)
    (by
      have hd : ((["a", "b"] ++ []).dedup) = ["a", "b"] := by decide
      have sa : rrf_score ["a", "b"] [] 1 "a" = 1 := by
        have r1 : rank_lookup ["a", "b"] "a" = 1 := by decide
        have r2 : rank_lookup [] "a" = 1 := by decide
        rw [rrf_score, r1, r2]
        norm_num
      have sb : rrf_score ["a", "b"] [] 1 "b" = 5 / 6 := by
        have r1 : rank_lookup ["a", "b"] "b" = 2 := by decide
        have r2 : rank_lookup [] "b" = 1 := by decide
        rw [rrf_score, r1, r2]
        norm_num
      rw [hd]
      simp only [List.map_cons, List.map_nil, sa, sb]
      norm_num [List.nodup_cons])

/-! C6 / C7: reranker degradation and selector backfill -/

theorem filter_pair_map_fst (tp : List (String × ℚ)) (final0 : List String) :
    (tp.filter fun p => decide (p.1 ∉ final0)).map Prod.fst
      = (tp.map Prod.fst).filter fun x => decide (x ∉ final0) := by
  rw [List.filter_map]
  rfl

theorem select_final_ids_nil (tp : List (String × ℚ)) (rc : Nat) :
    select_final_ids tp rc [] = (tp.map Prod.fst).take rc := by
  by_cases hrc : 0 < rc
  · have hfil : (tp.filter fun p => decide (p.1 ∉ ([] : List String))) = tp := by
      simp
    rw [select_final_ids, if_pos (by simpa using hrc), hfil]
    simp [List.map_take]
  · have : rc = 0 := by omega
    subst this
    rw [select_final_ids]
    simp

/-- C7: when the reranker returned fewer than `result_count` ids, the
selector keeps them in front and appends the next-best fused candidates
not already present, in fused order, until `result_count` ids are reached
or the fused pool is exhausted. -/
theorem selector_backfill (tp : List (String × ℚ)) (rc : Nat) (final0 : List String)
    (h : final0.length < rc) :
    ((select_final_ids tp rc final0).take final0.length = final0)
    ∧ ((select_final_ids tp rc final0).drop final0.length).Sublist (tp.map Prod.fst)
    ∧ (∀ x ∈ (select_final_ids tp rc final0).drop final0.length, x ∉ final0)
    ∧ (select_final_ids tp rc final0).drop final0.length
        = ((tp.map Prod.fst).filter fun x => decide (x ∉ final0)).take (rc - final0.length)
    ∧ (select_final_ids tp rc final0).length
        = min rc (final0.length
            + ((tp.map Prod.fst).filter fun x => decide (x ∉ final0)).length) := by
  have hsel : select_final_ids tp rc final0
      = final0 ++ ((tp.filter fun p => decide (p.1 ∉ final0)).take
          (rc - final0.length)).map Prod.fst := by
    rw [select_final_ids, if_pos h]
  have hadd : ((tp.filter fun p => decide (p.1 ∉ final0)).take
        (rc - final0.length)).map Prod.fst
      = ((tp.map Prod.fst).filter fun x => decide (x ∉ final0)).take
          (rc - final0.length) := by
    rw [List.map_take, filter_pair_map_fst]
  refine ⟨?_, ?_, ?_, ?_, ?_⟩
  · rw [hsel, List.take_left]
  · rw [hsel, List.drop_left, hadd]
    exact (List.take_sublist _ _).trans (List.filter_sublist _)
  · intro x hx
    rw [hsel, List.drop_left, hadd] at hx
    have hx2 := (List.take_sublist _ _).mem hx
    have := (List.mem_filter.mp hx2).2
    exact of_decide_eq_true this
  · rw [hsel, List.drop_left, hadd]
  · rw [hsel, List.length_append, hadd, List.length_take]
    omega

/-- C7 witness: a pool of three fused candidates, a reranker output of one
id, a requested count of two. -/
theorem selector_backfill_witness :
    ((select_final_ids [("a", 1), ("b", 1), ("c", 1)] 2 ["b"]).take 1 = ["b"])
    ∧ ((select_final_ids [("a", 1), ("b", 1), ("c", 1)] 2 ["b"]).drop 1).Sublist
        ([("a", (1 : ℚ)), ("b", 1), ("c", 1)].map Prod.fst)
    ∧ (∀ x ∈ (select_final_ids [("a", 1), ("b", 1), ("c", 1)] 2 ["b"]).drop 1,
        x ∉ ["b"])
    ∧ (select_final_ids [("a", 1), ("b", 1), ("c", 1)] 2 ["b"]).drop 1
        = (([("a", (1 : ℚ)), ("b", 1), ("c", 1)].map Prod.fst).filter
            fun x => decide (x ∉ ["b"])).take 1
    ∧ (select_final_ids [("a", 1), ("b", 1), ("c", 1)] 2 ["b"]).length
        = min 2 (1 + (([("a", (1 : ℚ)), ("b", 1), ("c", 1)].map Prod.fst).filter
            fun x => decide (x ∉ ["b"])).length) :=
  selector_backfill [("a", 1), ("b", 1), ("c", 1)] 2 ["b"] (by decide)

/-- C6 counterexample: a `RateLimitError` from the reranker is re-raised by
`llm_filter_panel` and `search_pipeline` does not catch it, so the whole
query fails — the reranker failing can fail the query. -/
theorem rerank_ratelimit_fails :
    rerank_step [("a", 1)] 1 [⟨"a", "x"⟩] LLMOutcome.rateLimit
      = Except.error () := rfl

/-- C6 amended: for every reranker outcome other than a (persistent)
`RateLimitError` the pipeline returns a result, and when the reranker
errors (non-rate-limit) the result is exactly the fused order truncated to
the requested count. -/
theorem rerank_degrades_on_failure (tp : List (String × ℚ)) (rc : Nat)
    (jsons : List PanelJson) (o : LLMOutcome) (h : o ≠ LLMOutcome.rateLimit) :
    (∃ ids, rerank_step tp rc jsons o = Except.ok ids)
    ∧ (o = LLMOutcome.failure →
        rerank_step tp rc jsons o = Except.ok ((tp.map Prod.fst).take rc)) := by
  constructor
  · cases o with
    | ok t =>
      by_cases hj : jsons.isEmpty
      · exact ⟨_, by rw [rerank_step, llm_filter_panel, if_pos hj]⟩
      · exact ⟨_, by rw [rerank_step, llm_filter_panel, if_neg hj]⟩
    | rateLimit => exact absurd rfl h
    | failure =>
      by_cases hj : jsons.isEmpty
      · exact ⟨_, by rw [rerank_step, llm_filter_panel, if_pos hj]⟩
      · exact ⟨_, by rw [rerank_step, llm_filter_panel, if_neg hj]⟩
  · intro ho
    subst ho
    have hfp : llm_filter_panel jsons LLMOutcome.failure = Except.ok "" := by
      rw [llm_filter_panel]
      split <;> rfl
    have hempty : ((splitWs (pyStrip "".data)).map String.mk) = ([] : List String) := by
      simp [pyStrip, splitWs]
    rw [rerank_step, hfp]
    show Except.ok (select_final_ids tp rc ((splitWs (pyStrip "".data)).map String.mk))
      = Except.ok ((tp.map Prod.fst).take rc)
    rw [hempty, select_final_ids_nil]

/-- C6 witness: a non-rate-limit reranker error on a singleton pool yields
the fused head as the answer. -/
theorem rerank_degrades_witness :
    (∃ ids, rerank_step [("a", 1)] 1 [⟨"a", "x"⟩] LLMOutcome.failure = Except.ok ids)
    ∧ (LLMOutcome.failure = LLMOutcome.failure →
        rerank_step [("a", 1)] 1 [⟨"a", "x"⟩] LLMOutcome.failure
          = Except.ok (([("a", (1 : ℚ))].map Prod.fst).take 1)) :=
  rerank_degrades_on_failure [("a", 1)] 1 [⟨"a", "x"⟩] LLMOutcome.failure (by decide)

/-! C3: final response assembly -/

/-- C3 counterexample: `final_ids = ["P1", "P3"]` against a table stored in
the order P3, P1 — `get_jsons_by_ids` (`WHERE id IN %s`, no `ORDER BY`)
returns the records in table order, so the response order differs from
`final_ids`. -/
theorem response_order_counterexample :
    (final_answers [⟨"P3", "c"⟩, ⟨"P1", "a"⟩] ["P1", "P3"] 2).map JsonRow.id
      = ["P3", "P1"]
    ∧ (["P3", "P1"] : List String) ≠ ["P1", "P3"] := by decide

/-- C3 amended: the response is the records whose ids appear in
`final_ids`, in the database table's own order, truncated to the requested
count (`answers_full[:min(result_count, len(answers_full))]`); the
response reports the returned count (`final_count`), not a shortfall
flag. -/
theorem final_answers_props (table : List JsonRow) (final_ids : List String)
    (result_count : Nat) :
    (final_answers table final_ids result_count).Sublist table
    ∧ (∀ r ∈ final_answers table final_ids result_count, r.id ∈ final_ids)
    ∧ (final_answers table final_ids result_count).length
        = min result_count (get_jsons_by_ids table final_ids).length
    ∧ final_answers table final_ids result_count
        = (get_jsons_by_ids table final_ids).take result_count := by
  have hsub : (get_jsons_by_ids table final_ids).Sublist table := by
    rw [get_jsons_by_ids]
    split
    · exact List.nil_sublist _
    · exact List.filter_sublist _
  refine ⟨?_, ?_, ?_, ?_⟩
  · exact (List.take_sublist _ _).trans hsub
  · intro r hr
    have hr2 : r ∈ get_jsons_by_ids table final_ids :=
      (List.take_sublist _ _).mem hr
    rw [get_jsons_by_ids] at hr2
    split at hr2
    · exact absurd hr2 (List.not_mem_nil r)
    · exact of_decide_eq_true (List.mem_filter.mp hr2).2
  · rw [final_answers, List.length_take]
    omega
  · rw [final_answers]
    rw [List.take_eq_take]
    omega

/-! C4: attribute filters and row order -/

/-- C4: `filter_by_regions` and `has_field_info` issue
`SELECT id ... WHERE id = ANY(%s) AND ...` with no `ORDER BY`, so the ids
come back in table order — with the table stored as P3, P1, P2 the result
`["P3", "P1"]` is not a subsequence of the input `["P1", "P2", "P3"]`,
although `bm25_search`'s contract says the filtered list stays
relevance-ordered. -/
theorem filter_by_regions_order_bug :
    filter_by_regions [⟨"P3", "Gyeonggi"⟩, ⟨"P1", "Seoul"⟩, ⟨"P2", "Busan"⟩]
        ["P1", "P2", "P3"] (some ["Seoul", "Gyeonggi"]) = ["P3", "P1"]
    ∧ ¬ (["P3", "P1"] : List String).Sublist ["P1", "P2", "P3"]
    ∧ has_field_info [⟨"P3", [("k", "v")]⟩, ⟨"P1", [("k", "v")]⟩]
        ["P1", "P3"] ["k"] = ["P3", "P1"] := by decide

/-! C5: snapshot persistence -/

/-- C5 counterexample: the operation trace of `save_index` is a single
direct `write` to `bm25_index.pkl`; it contains no rename of a temporary
file onto the destination, so the replacement is not write-to-temp then
rename. -/
theorem save_index_not_atomic :
    ¬ atomicReplace (save_index_ops "snapshot") "bm25_index.pkl" := by
  rintro ⟨i, j, tmp, c, hij, hi, hne, hj⟩
  rcases j with _ | j2
  · omega
  · have hnone : (save_index_ops "snapshot")[j2 + 1]? = none := by
      simp [save_index_ops]
    rw [hnone] at hj
    exact Option.noConfusion hj

/-- C5 amended: `save_index` overwrites `bm25_index.pkl` in place with a
single direct write (no temp-and-rename swap), and a build aborted because
the corpus source is unreachable exits before any write, leaving the
previously persisted snapshot untouched. -/
theorem snapshot_persistence_props :
    (∀ c fs, build_and_save false c fs = fs)
    ∧ (∀ c, save_index_ops c = [FsOp.write "bm25_index.pkl" c])
    ∧ (∀ c fs p, p ≠ "bm25_index.pkl" → build_and_save true c fs p = fs p)
    ∧ (∀ c fs, build_and_save true c fs "bm25_index.pkl" = some c) := by
  refine ⟨fun c fs => rfl, fun c => rfl, ?_, fun c fs => rfl⟩
  intro c fs p hp
  simp [build_and_save, hp]

/-- C5 witness: an aborted build leaves an empty filesystem empty; a
successful build rewrites only the destination path. -/
theorem snapshot_persistence_witness :
    build_and_save false "s" (fun _ => none) = (fun _ => none)
    ∧ build_and_save true "s" (fun _ => none) "other.pkl" = none
    ∧ build_and_save true "s" (fun _ => none) "bm25_index.pkl" = some "s" :=
  ⟨snapshot_persistence_props.1 "s" (fun _ => none),
   snapshot_persistence_props.2.2.1 "s" (fun _ => none) "other.pkl" (by decide),
   snapshot_persistence_props.2.2.2 "s" (fun _ => none)⟩

/-! C9: repeated filler glyphs in `preprocess_text` -/

theorem takeWhile_beq_replicate (c : Char) (m : Nat) :
    (List.replicate m c).takeWhile (fun d => d == c) = List.replicate m c := by
  induction m with
  | zero => rfl
  | succ n ih => simp [List.replicate_succ, List.takeWhile_cons, ih]

theorem remove_repeated_jamo_nil : remove_repeated_jamo [] = [] := by
  simp only [remove_repeated_jamo]

theorem remove_repeated_jamo_run (c : Char) (hj : isJamo c = true) (m : Nat) :
    remove_repeated_jamo (List.replicate (m + 2) c) = [] := by
  have hrep : List.replicate (m + 2) c = c :: List.replicate (m + 1) c := by
    rw [List.replicate_succ]
  rw [hrep]
  simp only [remove_repeated_jamo]
  rw [takeWhile_beq_replicate]
  have hne : (List.replicate (m + 1) c).isEmpty = false := by
    rw [List.replicate_succ]
    rfl
  rw [hj, hne]
  simp only [Bool.not_false, Bool.and_self, if_true]
  rw [List.length_replicate, List.drop_of_length_le (by rw [List.length_replicate])]
  exact remove_repeated_jamo_nil

theorem remove_repeated_jamo_single (c : Char) :
    remove_repeated_jamo [c] = [c] := by
  simp only [remove_repeated_jamo]
  simp [List.takeWhile]

theorem remove_repeated_jamo_no_jamo (s : List Char)
    (h : ∀ c ∈ s, isJamo c = false) : remove_repeated_jamo s = s := by
  induction s with
  | nil => exact remove_repeated_jamo_nil
  | cons c rest ih =>
    have hc : isJamo c = false := h c (List.mem_cons_self c rest)
    have hrest := ih fun d hd => h d (List.mem_cons_of_mem c hd)
    simp only [remove_repeated_jamo, hc, Bool.false_and, hrest]
    simp

theorem dropWhile_space_replicate (m : Nat) :
    (List.replicate m ' ').dropWhile pyIsSpace = [] := by
  induction m with
  | zero => rfl
  | succ n ih =>
    rw [List.replicate_succ, List.dropWhile_cons]
    simp only [show pyIsSpace ' ' = true from by decide, if_true]
    exact ih

theorem collapseWs_space_run (m : Nat) :
    collapseWs (List.replicate (m + 1) ' ') = [' '] := by
  rw [List.replicate_succ]
  simp only [collapseWs, show pyIsSpace ' ' = true from by decide, if_true]
  rw [dropWhile_space_replicate]
  simp only [collapseWs]

theorem isStep1Kept_of_jamo (c : Char) (hj : isJamo c = true) :
    isStep1Kept c = false := by
  rw [isJamo, Bool.and_eq_true, decide_eq_true_eq, decide_eq_true_eq] at hj
  rw [isStep1Kept, pyIsSpace]
  apply Bool.eq_false_iff.mpr
  intro habs
  simp only [Bool.or_eq_true, Bool.and_eq_true, decide_eq_true_eq] at habs
  omega

/-- C9 counterexample: the run `ㅋㅋㅋ` is removed outright, both by the
dedicated repeated-jamo rule (step 2) and by the whole normalisation
(step 1 already replaces every jamo with a space), instead of being
collapsed to a single `ㅋ`. -/
theorem jamo_collapse_counterexample :
    remove_repeated_jamo ['ㅋ', 'ㅋ', 'ㅋ'] = []
    ∧ preprocess_normalize ['ㅋ', 'ㅋ', 'ㅋ'] = []
    ∧ (([] : List Char) ≠ ['ㅋ']) := by
  have hrep : (['ㅋ', 'ㅋ', 'ㅋ'] : List Char) = List.replicate (1 + 2) 'ㅋ' := rfl
  have hj : isJamo 'ㅋ' = true := by decide
  have h2 : remove_repeated_jamo ['ㅋ', 'ㅋ', 'ㅋ'] = [] := by
    rw [hrep]
    exact remove_repeated_jamo_run 'ㅋ' hj 1
  refine ⟨h2, ?_, by decide⟩
  have hs1 : step1 ['ㅋ', 'ㅋ', 'ㅋ'] = List.replicate (2 + 1) ' ' := by
    rw [hrep, step1, List.map_replicate, isStep1Kept_of_jamo 'ㅋ' hj]
    rfl
  rw [preprocess_normalize, hs1,
    remove_repeated_jamo_no_jamo _ (by intro c hc; rw [List.eq_of_mem_replicate hc]; decide),
    collapseWs_space_run]
  decide

/-- C9 amended: a run of `n ≥ 2` equal jamo is deleted by the repeated-jamo
rule (not collapsed to one occurrence); a lone jamo survives that rule but
step 1 has already turned every jamo into a space, so the whole
normalisation removes filler glyphs entirely. -/
theorem filler_runs_removed (c : Char) (n : Nat) (hj : isJamo c = true)
    (hn : 2 ≤ n) :
    remove_repeated_jamo (List.replicate n c) = []
    ∧ remove_repeated_jamo [c] = [c]
    ∧ step1 [c] = [' ']
    ∧ preprocess_normalize (List.replicate n c) = [] := by
  obtain ⟨m, rfl⟩ : ∃ m, n = m + 2 := ⟨n - 2, by omega⟩
  refine ⟨remove_repeated_jamo_run c hj m, remove_repeated_jamo_single c, ?_, ?_⟩
  · rw [step1]
    simp [isStep1Kept_of_jamo c hj]
  · have hs1 : step1 (List.replicate (m + 2) c) = List.replicate (m + 1 + 1) ' ' := by
      rw [step1, List.map_replicate, isStep1Kept_of_jamo c hj]
      rfl
    rw [preprocess_normalize, hs1,
      remove_repeated_jamo_no_jamo _
        (by intro d hd; rw [List.eq_of_mem_replicate hd]; decide),
      collapseWs_space_run]
    decide

/-- C9 amended witness: the theorem applied to `ㅋ` with run length 3. -/
theorem filler_runs_removed_witness :
    remove_repeated_jamo (List.replicate 3 'ㅋ') = []
    ∧ remove_repeated_jamo ['ㅋ'] = ['ㅋ']
    ∧ step1 ['ㅋ'] = [' ']
    ∧ preprocess_normalize (List.replicate 3 'ㅋ') = [] :=
  filler_runs_removed 'ㅋ' 3 (by decide) (by decide)

/-! C8: batch size does not affect the built snapshot -/

theorem chunksB_flatten_aux (b : Nat) (hb : 0 < b) :
    ∀ (n : Nat) (l : List (String × String)), l.length ≤ n →
      (chunksB b l).flatten = l := by
  intro n
  induction n with
  | zero =>
    intro l hl
    have : l = [] := List.eq_nil_of_length_eq_zero (by omega)
    subst this
    simp [chunksB]
  | succ n ih =>
    intro l hl
    cases l with
    | nil => simp [chunksB]
    | cons r rest =>
      obtain ⟨b2, rfl⟩ : ∃ b2, b = b2 + 1 := ⟨b - 1, by omega⟩
      simp only [chunksB, List.flatten_cons]
      rw [ih ((r :: rest).drop (b2 + 1))
        (by simp only [List.length_drop, List.length_cons] at hl ⊢; omega)]
      exact List.take_append_drop _ _

theorem chunksB_flatten (b : Nat) (hb : 0 < b) (l : List (String × String)) :
    (chunksB b l).flatten = l :=
  chunksB_flatten_aux b hb l.length l le_rfl

theorem build_bm25_index_eq_fold (tok : String → List String) (b : Nat)
    (hb : 0 < b) (rows : List (String × String)) :
    build_bm25_index tok b rows = rows.foldl (stepDoc tok) ([], [], 0) := by
  rw [build_bm25_index, ← List.foldl_flatten, chunksB_flatten b hb rows]

/-- C8: building the snapshot from an unchanged corpus with any two valid
batch sizes yields identical index contents — the same postings, the same
per-document length table, the same document-id list and the same
excluded-document count. -/
theorem build_batch_size_independent (tok : String → List String)
    (b₁ b₂ : Nat) (h₁ : 0 < b₁) (h₂ : 0 < b₂) (rows : List (String × String)) :
    build_bm25_index tok b₁ rows = build_bm25_index tok b₂ rows
    ∧ (∀ t, postings (build_bm25_index tok b₁ rows) t
        = postings (build_bm25_index tok b₂ rows) t)
    ∧ docLengthTable (build_bm25_index tok b₁ rows)
        = docLengthTable (build_bm25_index tok b₂ rows)
    ∧ (build_bm25_index tok b₁ rows).2.1 = (build_bm25_index tok b₂ rows).2.1
    ∧ excludedCount (build_bm25_index tok b₁ rows)
        = excludedCount (build_bm25_index tok b₂ rows) := by
  have he : build_bm25_index tok b₁ rows = build_bm25_index tok b₂ rows := by
    rw [build_bm25_index_eq_fold tok b₁ h₁ rows, build_bm25_index_eq_fold tok b₂ h₂ rows]
  exact ⟨he, fun t => by rw [he], by rw [he], by rw [he], by rw [he]⟩

/-- C8 witness: batch sizes 2 and 10 over a five-document corpus (the
example of the claim), with a tokenizer that drops empty documents. -/
theorem build_batch_size_independent_witness :
    build_bm25_index (fun s => if s = "" then [] else [s]) 2
        [("d1", "x"), ("d2", ""), ("d3", "y"), ("d4", "z"), ("d5", "")]
      = build_bm25_index (fun s => if s = "" then [] else [s]) 10
        [("d1", "x"), ("d2", ""), ("d3", "y"), ("d4", "z"), ("d5", "")]
    ∧ (∀ t, postings (build_bm25_index (fun s => if s = "" then [] else [s]) 2
          [("d1", "x"), ("d2", ""), ("d3", "y"), ("d4", "z"), ("d5", "")]) t
        = postings (build_bm25_index (fun s => if s = "" then [] else [s]) 10
          [("d1", "x"), ("d2", ""), ("d3", "y"), ("d4", "z"), ("d5", "")]) t)
    ∧ docLengthTable (build_bm25_index (fun s => if s = "" then [] else [s]) 2
          [("d1", "x"), ("d2", ""), ("d3", "y"), ("d4", "z"), ("d5", "")])
        = docLengthTable (build_bm25_index (fun s => if s = "" then [] else [s]) 10
          [("d1", "x"), ("d2", ""), ("d3", "y"), ("d4", "z"), ("d5", "")])
    ∧ (build_bm25_index (fun s => if s = "" then [] else [s]) 2
          [("d1", "x"), ("d2", ""), ("d3", "y"), ("d4", "z"), ("d5", "")]).2.1
        = (build_bm25_index (fun s => if s = "" then [] else [s]) 10
          [("d1", "x"), ("d2", ""), ("d3", "y"), ("d4", "z"), ("d5", "")]).2.1
    ∧ excludedCount (build_bm25_index (fun s => if s = "" then [] else [s]) 2
          [("d1", "x"), ("d2", ""), ("d3", "y"), ("d4", "z"), ("d5", "")])
        = excludedCount (build_bm25_index (fun s => if s = "" then [] else [s]) 10
          [("d1", "x"), ("d2", ""), ("d3", "y"), ("d4", "z"), ("d5", "")]) :=
  build_batch_size_independent (fun s => if s = "" then [] else [s]) 2 10
    (by decide) (by decide)
    [("d1", "x"), ("d2", ""), ("d3", "y"), ("d4", "z"), ("d5", "")]

/-! C10: parsing the reranker response -/

theorem dropWhile_idem (p : Char → Bool) (l : List Char) :
    (l.dropWhile p).dropWhile p = l.dropWhile p := by
  induction l with
  | nil => rfl
  | cons c rest ih =>
    rw [List.dropWhile_cons]
    by_cases hp : p c
    · simp [hp, ih]
    · simp [hp, List.dropWhile_cons]

theorem dropWhile_cons_eq_false (p : Char → Bool) (c : Char) (l : List Char) :
    ∀ s : List Char, s.dropWhile p = c :: l → p c = false := by
  intro s
  induction s with
  | nil => intro h; exact absurd h (by simp)
  | cons d rest ih =>
    intro h
    rw [List.dropWhile_cons] at h
    by_cases hd : p d
    · exact ih (by rwa [if_pos hd] at h)
    · rw [if_neg hd] at h
      injection h with h1 h2
      rw [← h1]
      exact Bool.eq_false_iff.mpr hd

theorem dropWhile_eq_self_of_pre_dropWhile (p : Char → Bool) {t s : List Char}
    (h : t <+: s.dropWhile p) : t.dropWhile p = t := by
  rcases t with _ | ⟨c, ts⟩
  · rfl
  · obtain ⟨r, hr⟩ := h
    have hpc : p c = false :=
      dropWhile_cons_eq_false p c (ts ++ r) s (by rw [← hr]; rfl)
    rw [List.dropWhile_cons, hpc]
    simp

theorem pyStrip_idem (s : List Char) : pyStrip (pyStrip s) = pyStrip s := by
  have claim1 : (pyStrip s).dropWhile pyIsSpace = pyStrip s := by
    have hsuf : ((s.dropWhile pyIsSpace).reverse).dropWhile pyIsSpace
        <:+ (s.dropWhile pyIsSpace).reverse := List.dropWhile_suffix _
    have hpre : (((s.dropWhile pyIsSpace).reverse).dropWhile pyIsSpace).reverse
        <+: s.dropWhile pyIsSpace := by
      have h2 := List.reverse_prefix.mpr hsuf
      rwa [List.reverse_reverse] at h2
    exact dropWhile_eq_self_of_pre_dropWhile pyIsSpace hpre
  have hrev : (pyStrip s).reverse
      = ((s.dropWhile pyIsSpace).reverse).dropWhile pyIsSpace := by
    show (((s.dropWhile pyIsSpace).reverse.dropWhile pyIsSpace).reverse).reverse = _
    rw [List.reverse_reverse]
  show (((pyStrip s).dropWhile pyIsSpace).reverse.dropWhile pyIsSpace).reverse
      = pyStrip s
  rw [claim1, hrev, dropWhile_idem]
  rfl

theorem splitFirst_append (pat : List Char) (hpat : pat ≠ []) :
    ∀ (u v : List Char),
      (∀ i < u.length, ¬ pat <+: ((u ++ (pat ++ v)).drop i)) →
      splitFirst pat (u ++ (pat ++ v)) = some (u, v) := by
  intro u
  induction u with
  | nil =>
    intro v _
    obtain ⟨p0, ps, rfl⟩ : ∃ p0 ps, pat = p0 :: ps := by
      rcases pat with _ | ⟨p0, ps⟩
      · exact absurd rfl hpat
      · exact ⟨p0, ps, rfl⟩
    have hpre : (p0 :: ps).isPrefixOf (p0 :: (ps ++ v)) = true :=
      ( List.isPrefixOf_iff_prefix).mpr ⟨v, by simp⟩
    have hdrop : (p0 :: (ps ++ v)).drop (p0 :: ps).length = v := by
      rw [show p0 :: (ps ++ v) = (p0 :: ps) ++ v from rfl, List.drop_left]
    simp only [List.nil_append, List.cons_append, splitFirst, List.append_eq,
      hpre, if_true, hdrop]
  | cons c u2 ih =>
    intro v hnot
    have h0 : ¬ pat <+: (c :: (u2 ++ (pat ++ v))) := by
      have := hnot 0 (by simp)
      simpa using this
    have hpf : pat.isPrefixOf (c :: (u2 ++ (pat ++ v))) = false := by
      apply Bool.eq_false_iff.mpr
      intro habs
      exact h0 (( List.isPrefixOf_iff_prefix).mp habs)
    have hih := ih v (by
      intro i hi
      have := hnot (i + 1) (by simp; omega)
      rwa [List.cons_append, List.drop_succ_cons] at this)
    simp only [List.cons_append, splitFirst, List.append_eq, hpf,
      Bool.false_eq_true, if_false, hih]

theorem splitFirst_eq_none (pat : List Char) (hpat : pat ≠ []) :
    ∀ s : List Char, (∀ i, ¬ pat <+: s.drop i) → splitFirst pat s = none := by
  intro s
  induction s with
  | nil =>
    intro h
    have hpf : pat.isPrefixOf ([] : List Char) = false := by
      apply Bool.eq_false_iff.mpr
      intro habs
      exact h 0 (( List.isPrefixOf_iff_prefix).mp habs)
    simp only [splitFirst, hpf, Bool.false_eq_true, if_false]
  | cons c rest ih =>
    intro h
    have hpf : pat.isPrefixOf (c :: rest) = false := by
      apply Bool.eq_false_iff.mpr
      intro habs
      exact h 0 (( List.isPrefixOf_iff_prefix).mp habs)
    have hih := ih (by
      intro i
      have := h (i + 1)
      rwa [List.drop_succ_cons] at this)
    simp only [splitFirst, hpf, Bool.false_eq_true, if_false, hih]

theorem splitFirst_sound (pat : List Char) :
    ∀ s u v : List Char, splitFirst pat s = some (u, v) → s = u ++ (pat ++ v) := by
  intro s
  induction s with
  | nil =>
    intro u v h
    simp only [splitFirst] at h
    split at h
    · rename_i hpf
      have hp : pat <+: ([] : List Char) := ( List.isPrefixOf_iff_prefix).mp hpf
      have hpe : pat = [] := List.prefix_nil.mp hp
      injection h with h2
      injection h2 with h3 h4
      rw [← h3, ← h4, hpe]
      rfl
    · exact Option.noConfusion h
  | cons c rest ih =>
    intro u v h
    simp only [splitFirst] at h
    split at h
    · rename_i hpf
      have hp : pat <+: (c :: rest) := ( List.isPrefixOf_iff_prefix).mp hpf
      obtain ⟨t, ht⟩ := hp
      injection h with h2
      injection h2 with h3 h4
      rw [← h3, ← h4, List.nil_append, ← ht, List.drop_left]
    · rcases hs2 : splitFirst pat rest with _ | ⟨u2, v2⟩
      · rw [hs2] at h
        exact Option.noConfusion h
      · rw [hs2] at h
        injection h with h2
        injection h2 with h3 h4
        rw [← h3, ← h4, List.cons_append, ih u2 v2 hs2]

theorem extractResult_no_close (s : List Char)
    (h : ∀ i, ¬ closeTag <+: s.drop i) : extractResult s = pyStrip s := by
  rcases hsp : splitFirst openTag s with _ | ⟨u, rest⟩
  · simp only [extractResult, hsp]
  · have hs : s = u ++ (openTag ++ rest) := splitFirst_sound openTag s u rest hsp
    have hrest : ∀ i, ¬ closeTag <+: rest.drop i := by
      intro i habs
      apply h ((u ++ openTag).length + i)
      rw [hs, ← List.drop_drop, show u ++ (openTag ++ rest) = (u ++ openTag) ++ rest
        from (List.append_assoc u openTag rest).symm, List.drop_left]
      exact habs
    simp only [extractResult, hsp, splitFirst_eq_none closeTag (by decide) rest hrest]

/-- C10: the reranker response parse — when the response decomposes as
`a ++ "<result>" ++ b ++ "</result>" ++ c` with no earlier opening tag and
no earlier closing tag inside `b`, exactly the inner text of that first
block (stripped, whitespace-split) becomes the id list; and for a response
containing no closing tag anywhere, the entire stripped response text is
split on whitespace into ids — the parse is total, so arbitrary free text
can become the id list. -/
theorem llm_result_parse (a b c : List Char)
    (hopen : ∀ i < a.length,
      ¬ openTag <+: ((a ++ (openTag ++ (b ++ (closeTag ++ c)))).drop i))
    (hclose : ∀ j < b.length, ¬ closeTag <+: ((b ++ (closeTag ++ c)).drop j)) :
    (extractResult (a ++ (openTag ++ (b ++ (closeTag ++ c)))) = pyStrip b
     ∧ llmFinalIds (a ++ (openTag ++ (b ++ (closeTag ++ c)))) = splitWs (pyStrip b))
    ∧ (∀ s, (∀ i, ¬ closeTag <+: s.drop i) →
        extractResult s = pyStrip s ∧ llmFinalIds s = splitWs (pyStrip s)) := by
  constructor
  · have h1 : splitFirst openTag (a ++ (openTag ++ (b ++ (closeTag ++ c))))
        = some (a, b ++ (closeTag ++ c)) :=
      splitFirst_append openTag (by decide) a (b ++ (closeTag ++ c)) hopen
    have h2 : splitFirst closeTag (b ++ (closeTag ++ c)) = some (b, c) :=
      splitFirst_append closeTag (by decide) b c hclose
    have hex : extractResult (a ++ (openTag ++ (b ++ (closeTag ++ c)))) = pyStrip b := by
      simp only [extractResult, h1, h2]
    exact ⟨hex, by rw [llmFinalIds, hex, pyStrip_idem]⟩
  · intro s hs
    have hex := extractResult_no_close s hs
    exact ⟨hex, by rw [llmFinalIds, hex, pyStrip_idem]⟩

/-- C10 witness: the response `"<result> w1  w2 </result>junk"` parses to
ids `w1`, `w2`; the hypotheses are checked on this concrete response. -/
theorem llm_result_parse_witness :
    (extractResult (([] : List Char) ++ (openTag ++ ((" w1  w2 ".data) ++ (closeTag ++ "junk".data))))
        = pyStrip " w1  w2 ".data
     ∧ llmFinalIds (([] : List Char) ++ (openTag ++ ((" w1  w2 ".data) ++ (closeTag ++ "junk".data))))
        = splitWs (pyStrip " w1  w2 ".data))
    ∧ (∀ s, (∀ i, ¬ closeTag <+: s.drop i) →
        extractResult s = pyStrip s ∧ llmFinalIds s = splitWs (pyStrip s)) :=
  llm_result_parse [] " w1  w2 ".data "junk".data (by decide) (by decide)

end PanelSearch
